import Mathlib

/-!
Verification of the emballoc fixed-buffer allocator.

The crate has two layers.  The outer layer (`Allocator` in `src/lib.rs`)
wraps a raw allocator behind a mutex, inflates over-aligned requests and
fixes the returned pointer up (`Allocator::align_to`, `GlobalAlloc::alloc`,
`GlobalAlloc::dealloc`).  The inner layer (`RawAllocator`, declared by
`mod raw_allocator`) partitions the `N`-byte buffer into an in-band list of
blocks, each a 4-byte header (state FREE/USED plus payload size) followed by
`size` payload bytes.

We embed the block list abstractly as a `List Block`: the byte offsets of the
headers are recovered by walking the list (`4 + size` per block), exactly as
the in-band structure is walked in the buffer.  Pointers are byte addresses
(`Nat`), with the buffer base made explicit where the outer layer needs
absolute addresses.
-/

namespace Emballoc

/-- One block of the in-band list: its state (FREE iff `free = true`) and the
payload size in bytes recorded in its header.  The block's footprint in the
buffer is `4 + size` bytes (4 header bytes plus the payload). -/
structure Block where
  free : Bool
  size : Nat
deriving DecidableEq, Repr

/-- Sum of the footprints (`4 + size` each) of a list of blocks: the number of
buffer bytes the blocks occupy. -/
def footprint (buf : List Block) : Nat :=
  (buf.map (fun b => 4 + b.size)).sum

/-- Walk the block list: starting at offset `off`, repeatedly advance by
`4 + size` and return the offset reached past the last block. -/
def walkFrom (off : Nat) : List Block → Nat
  | [] => off
  | b :: bs => walkFrom (off + (4 + b.size)) bs

/-- `Modelled from the spec:` the size rounding step of `RawAllocator::alloc`
(the file `src/raw_allocator.rs` is not part of the sources at hand).
"Round `requested_size` up to the next multiple of 4, call this `need`." -/
def roundUp4 (n : Nat) : Nat :=
  ((n + 3) / 4) * 4

/-- `Modelled from the spec:` step 4 of `RawAllocator::alloc` applied to the
chosen FREE block `b` with rounded request `need ≤ b.size`.  With the leftover
`L = b.size - need`: if `L ≥ 4` the block is shrunk to a USED block of size
`need` and a fresh FREE header of size `L - 4` is written right after its
payload; otherwise the leftover is absorbed and the block becomes USED keeping
size `b.size`. -/
def splitBlock (b : Block) (need : Nat) : List Block :=
  let L := b.size - need
  if 4 ≤ L then [⟨false, need⟩, ⟨true, L - 4⟩] else [⟨false, b.size⟩]

/-- `Modelled from the spec:` the scan of `RawAllocator::alloc` (module not in
the sources at hand).  Walk the block list from offset `off`; select the first
block that is FREE with `size ≥ need` (first-fit), rewrite it via
`splitBlock`, and return the payload offset (header offset plus 4) together
with the updated list; return `none` when no candidate exists. -/
def allocFrom (need off : Nat) : List Block → Option (Nat × List Block)
  | [] => none
  | b :: bs =>
    if b.free = true ∧ need ≤ b.size then
      some (off + 4, splitBlock b need ++ bs)
    else
      match allocFrom need (off + 4 + b.size) bs with
      | some (p, bs2) => some (p, b :: bs2)
      | none => none

/-- `Modelled from the spec:` `RawAllocator::alloc(requested_size)`: round the
size up to a multiple of 4 and run the first-fit scan from the buffer base
(offset 0).  Returns the payload offset of the chosen block and the updated
block list, or `none` (buffer unchanged) when no FREE block is large enough. -/
def rawAlloc (requested : Nat) (buf : List Block) : Option (Nat × List Block) :=
  allocFrom (roundUp4 requested) 0 buf

/-- The two error kinds of `RawAllocator::free`: the pointer lies in no
block's payload, or the containing block is already FREE. -/
inductive FreeError where
  | NotAllocated
  | DoubleFree
deriving DecidableEq, Repr

/-- `Modelled from the spec:` steps 3–4 of `RawAllocator::free` applied to the
located USED block of payload size `s` with successor list `bs`: flip it to
FREE, then right-coalesce once — if a right neighbor exists and is FREE,
absorb it, the size becoming `s + 4 + neighbor.size` and the neighbor's
header being erased. -/
def coalesce (s : Nat) : List Block → List Block
  | [] => [⟨true, s⟩]
  | nxt :: rest =>
    if nxt.free = true then ⟨true, s + 4 + nxt.size⟩ :: rest
    else ⟨true, s⟩ :: nxt :: rest

/-- `Modelled from the spec:` the scan of `RawAllocator::free` (module not in
the sources at hand).  Walk the block list from offset `off`; stop at the
first block whose payload range `[header+4, header+4+size)` contains the
pointer `p`.  If none does, fail with `NotAllocated`; if the containing block
is FREE, fail with `DoubleFree`; otherwise flip it to FREE and right-coalesce
via `coalesce`. -/
def freeFrom (p off : Nat) : List Block → Except FreeError (List Block)
  | [] => .error .NotAllocated
  | b :: bs =>
    if off + 4 ≤ p ∧ p < off + 4 + b.size then
      if b.free = true then .error .DoubleFree
      else .ok (coalesce b.size bs)
    else
      match freeFrom p (off + 4 + b.size) bs with
      | .ok bs2 => .ok (b :: bs2)
      | .error e => .error e

/-- `Modelled from the spec:` `RawAllocator::free(ptr)` over buffer offsets:
scan from the base; on success return the updated list, on error return the
untouched list together with the error kind. -/
def rawFree (p : Nat) (buf : List Block) : List Block × Option FreeError :=
  match freeFrom p 0 buf with
  | .ok buf2 => (buf2, none)
  | .error e => (buf, some e)

/-- `Modelled from the spec:` the initial block list: `k = 1`,
`B₀ = FREE with size = N - 4`. -/
def initialBuffer (N : Nat) : List Block :=
  [⟨true, N - 4⟩]

/-- `Modelled from the spec:` `RawAllocator::new` for buffer size `N` (module
not in the sources at hand; the panic condition is also documented on
`Allocator::new` in `src/lib.rs`).  Construction succeeds, producing the
initial one-FREE-block state, exactly when `N ≥ 8` and `N` is divisible by 4;
otherwise it is a construction-time panic, modelled as `none`. -/
def rawNew (N : Nat) : Option (List Block) :=
  if 8 ≤ N ∧ N % 4 = 0 then some (initialBuffer N) else none

/-- `Allocator::align_to(ptr, align)` from `src/lib.rs`: compute the mismatch
`addr & (align - 1)` and add `align - mismatch` when it is nonzero. -/
def align_to (addr align : Nat) : Nat :=
  let mismatch := addr &&& (align - 1)
  let offset := if mismatch ≠ 0 then align - mismatch else 0
  addr + offset

/-- The size handed to the raw allocator by `GlobalAlloc::alloc` in
`src/lib.rs`: `layout.size() + align` when `align > 4`, else `layout.size()`. -/
def allocSize (size align : Nat) : Nat :=
  if 4 < align then size + align else size

/-- `GlobalAlloc::alloc` for `Allocator` in `src/lib.rs`, with the buffer base
address `base` explicit: inflate the size via `allocSize`, ask the raw
allocator, and on success align the absolute payload address via `align_to`;
on failure return the null pointer (modelled as `none`). -/
def allocatorAlloc (base size align : Nat) (buf : List Block) :
    Option Nat × List Block :=
  match rawAlloc (allocSize size align) buf with
  | some (off, buf2) => (some (align_to (base + off) align), buf2)
  | none => (none, buf)

/-- `GlobalAlloc::dealloc` for `Allocator` in `src/lib.rs`: forward the
pointer to the raw allocator's free (scanning absolute addresses starting at
the buffer base) and swallow any error, leaving the buffer unchanged. -/
def allocatorDealloc (base p : Nat) (buf : List Block) : List Block :=
  match freeFrom p base buf with
  | .ok buf2 => buf2
  | .error _ => buf

/-- Invariant I2: every block's recorded payload size is a multiple of 4. -/
def sizesAligned (buf : List Block) : Prop :=
  ∀ b ∈ buf, b.size % 4 = 0

/-- The buffer invariants of the spec for buffer size `N`:
I1 (footprints sum to `N`), I2 (sizes are multiples of 4) and
I5 (walking from offset 0 reaches offset `N` exactly). -/
def Inv (N : Nat) (buf : List Block) : Prop :=
  footprint buf = N ∧ sizesAligned buf ∧ walkFrom 0 buf = N

/-- The block at header offset `x.1` contains pointer `p` in its payload
range `[x.1 + 4, x.1 + 4 + size)`. -/
def inPayload (p : Nat) (x : Nat × Block) : Prop :=
  x.1 + 4 ≤ p ∧ p < x.1 + 4 + x.2.size

/-- Pair every block with its header offset, walking from offset `off`. -/
def blockOffsets (off : Nat) : List Block → List (Nat × Block)
  | [] => []
  | b :: bs => (off, b) :: blockOffsets (off + 4 + b.size) bs

instance (buf : List Block) : Decidable (sizesAligned buf) :=
  List.decidableBAll _ buf

instance (N : Nat) (buf : List Block) : Decidable (Inv N buf) :=
  inferInstanceAs (Decidable (_ ∧ _ ∧ _))

instance (p : Nat) (x : Nat × Block) : Decidable (inPayload p x) :=
  inferInstanceAs (Decidable (_ ∧ _))

theorem footprint_nil : footprint [] = 0 := rfl

theorem footprint_cons (b : Block) (bs : List Block) :
    footprint (b :: bs) = 4 + b.size + footprint bs := by
  simp [footprint]

theorem footprint_append (l1 l2 : List Block) :
    footprint (l1 ++ l2) = footprint l1 + footprint l2 := by
  simp [footprint]

theorem walkFrom_eq (off : Nat) (buf : List Block) :
    walkFrom off buf = off + footprint buf := by
  induction buf generalizing off with
  | nil => simp [walkFrom, footprint]
  | cons b bs ih =>
    rw [walkFrom, ih, footprint_cons]
    omega

theorem footprint_mod4 (buf : List Block) (h : sizesAligned buf) :
    footprint buf % 4 = 0 := by
  induction buf with
  | nil => rfl
  | cons b bs ih =>
    have hb : b.size % 4 = 0 := h b (by simp)
    have hbs : footprint bs % 4 = 0 := ih (fun c hc => h c (by simp [hc]))
    rw [footprint_cons]
    omega

theorem sizesAligned_append (l1 l2 : List Block) :
    sizesAligned (l1 ++ l2) ↔ sizesAligned l1 ∧ sizesAligned l2 := by
  simp [sizesAligned, List.mem_append]
  constructor
  · exact fun h => ⟨fun b hb => h b (Or.inl hb), fun b hb => h b (Or.inr hb)⟩
  · rintro ⟨h1, h2⟩ b (hb | hb)
    · exact h1 b hb
    · exact h2 b hb

theorem sizesAligned_cons (b : Block) (bs : List Block) :
    sizesAligned (b :: bs) ↔ b.size % 4 = 0 ∧ sizesAligned bs := by
  simp [sizesAligned]

theorem roundUp4_spec (n : Nat) :
    n ≤ roundUp4 n ∧ roundUp4 n % 4 = 0 ∧ roundUp4 n < n + 4 := by
  have hd := Nat.div_add_mod (n + 3) 4
  have hm : (n + 3) % 4 < 4 := Nat.mod_lt _ (by norm_num)
  unfold roundUp4
  omega

theorem splitBlock_footprint (b : Block) (need : Nat) (h : need ≤ b.size) :
    footprint (splitBlock b need) = 4 + b.size := by
  unfold splitBlock
  by_cases hL : 4 ≤ b.size - need
  · rw [if_pos hL]
    simp [footprint]
    omega
  · rw [if_neg hL]
    simp [footprint]

theorem splitBlock_sizes (b : Block) (need : Nat) (h : need ≤ b.size)
    (hn : need % 4 = 0) (hb : b.size % 4 = 0) :
    sizesAligned (splitBlock b need) := by
  unfold splitBlock
  by_cases hL : 4 ≤ b.size - need
  · rw [if_pos hL]
    intro c hc
    simp [List.mem_cons] at hc
    rcases hc with rfl | rfl
    · exact hn
    · simp
      omega
  · rw [if_neg hL]
    intro c hc
    simp [List.mem_cons] at hc
    subst hc
    exact hb

/-- Whatever branch the split takes, the chosen block becomes the USED head of
the rewritten segment, with recorded size at least `need`. -/
theorem splitBlock_head (b : Block) (need : Nat) (h : need ≤ b.size) :
    ∃ s2 tail2, splitBlock b need = Block.mk false s2 :: tail2 ∧ need ≤ s2 := by
  unfold splitBlock
  by_cases hL : 4 ≤ b.size - need
  · exact ⟨need, _, by rw [if_pos hL], le_refl need⟩
  · exact ⟨b.size, _, by rw [if_neg hL], h⟩

/-- Soundness of the first-fit scan: a successful `allocFrom` decomposes the
buffer into a prefix of non-candidates, the first candidate (rewritten via
`splitBlock`) and the untouched suffix, and returns that candidate's payload
offset. -/
theorem allocFrom_eq_some (need off p : Nat) (buf buf2 : List Block)
    (h : allocFrom need off buf = some (p, buf2)) :
    ∃ pre b post, buf = pre ++ b :: post ∧
      (∀ c ∈ pre, ¬(c.free = true ∧ need ≤ c.size)) ∧
      b.free = true ∧ need ≤ b.size ∧
      p = off + footprint pre + 4 ∧
      buf2 = pre ++ splitBlock b need ++ post := by
  induction buf generalizing off p buf2 with
  | nil => exact absurd h (by simp [allocFrom])
  | cons b bs ih =>
    rw [allocFrom] at h
    by_cases hc : b.free = true ∧ need ≤ b.size
    · rw [if_pos hc] at h
      obtain ⟨hp, hb2⟩ := Prod.mk.injEq .. ▸ Option.some.inj h
      refine ⟨[], b, bs, rfl, by simp, hc.1, hc.2, ?_, by simp [hb2.symm]⟩
      rw [footprint_nil]
      omega
    · rw [if_neg hc] at h
      cases hrec : allocFrom need (off + 4 + b.size) bs with
      | none => rw [hrec] at h; exact absurd h (by simp)
      | some q =>
        rw [hrec] at h
        obtain ⟨p2, bs2⟩ := q
        simp at h
        obtain ⟨hp, hb2⟩ := h
        obtain ⟨pre, b2, post, hdec, hpre, hf, hs, hoff, hres⟩ := ih _ _ _ hrec
        refine ⟨b :: pre, b2, post, by rw [hdec]; rfl, ?_, hf, hs, ?_, ?_⟩
        · intro c hcm
          rcases List.mem_cons.mp hcm with rfl | hcm
          · exact hc
          · exact hpre c hcm
        · rw [← hp, hoff, footprint_cons]
          omega
        · rw [← hb2, hres]
          simp


/-- Completeness of the first-fit scan: if some block is FREE with enough
room, `allocFrom` succeeds. -/
theorem allocFrom_isSome (need off : Nat) (buf : List Block) (b : Block)
    (hb : b ∈ buf) (hf : b.free = true) (hs : need ≤ b.size) :
    (allocFrom need off buf).isSome = true := by
  induction buf generalizing off with
  | nil => exact absurd hb (by simp)
  | cons c cs ih =>
    rw [allocFrom]
    by_cases hc : c.free = true ∧ need ≤ c.size
    · rw [if_pos hc]
      rfl
    · rw [if_neg hc]
      rcases List.mem_cons.mp hb with rfl | hb2
      · exact absurd ⟨hf, hs⟩ hc
      · have := ih (off + 4 + c.size) hb2
        cases hrec : allocFrom need (off + 4 + c.size) cs with
        | none => simp [hrec] at this
        | some q => rfl

/-- The scan fails exactly when no block is FREE with enough room. -/
theorem allocFrom_eq_none_iff (need off : Nat) (buf : List Block) :
    allocFrom need off buf = none ↔
      ∀ b ∈ buf, ¬(b.free = true ∧ need ≤ b.size) := by
  constructor
  · intro h b hb hc
    have := allocFrom_isSome need off buf b hb hc.1 hc.2
    rw [h] at this
    exact absurd this (by simp)
  · intro h
    induction buf generalizing off with
    | nil => rfl
    | cons c cs ih =>
      rw [allocFrom, if_neg (h c (by simp)),
        ih (off + 4 + c.size) (fun b hb => h b (by simp [hb]))]

/-- The first-fit equation: on a buffer made of a prefix of non-candidates
followed by a candidate `b`, the scan selects `b`, returns its payload offset
and rewrites exactly `b` via `splitBlock`. -/
theorem allocFrom_firstFit (need off : Nat) (pre : List Block) (b : Block)
    (post : List Block)
    (hpre : ∀ c ∈ pre, ¬(c.free = true ∧ need ≤ c.size))
    (hf : b.free = true) (hs : need ≤ b.size) :
    allocFrom need off (pre ++ b :: post) =
      some (off + footprint pre + 4, pre ++ splitBlock b need ++ post) := by
  induction pre generalizing off with
  | nil =>
    rw [List.nil_append, allocFrom, if_pos ⟨hf, hs⟩]
    simp [footprint_nil]
  | cons c pre2 ih =>
    rw [List.cons_append, allocFrom, if_neg (hpre c (by simp)),
      ih (off + 4 + c.size) (fun d hd => hpre d (by simp [hd]))]
    have he : off + 4 + c.size + footprint pre2 + 4 =
        off + footprint (c :: pre2) + 4 := by
      rw [footprint_cons]
      omega
    rw [he]
    rfl

/-- A successful scan leaves the total footprint unchanged and, when `need`
is a multiple of 4, keeps all sizes multiples of 4. -/
theorem allocFrom_preserves (need off p : Nat) (buf buf2 : List Block)
    (h : allocFrom need off buf = some (p, buf2)) :
    footprint buf2 = footprint buf ∧
      (need % 4 = 0 → sizesAligned buf → sizesAligned buf2) := by
  obtain ⟨pre, b, post, hdec, hpre, hf, hs, hoff, hres⟩ :=
    allocFrom_eq_some need off p buf buf2 h
  subst hdec hres
  constructor
  · rw [footprint_append, footprint_append, footprint_append, footprint_cons,
      splitBlock_footprint b need hs]
    omega
  · intro hn ha
    rw [sizesAligned_append, sizesAligned_cons] at ha
    rw [sizesAligned_append, sizesAligned_append]
    exact ⟨⟨ha.1, splitBlock_sizes b need hs hn ha.2.1⟩, ha.2.2⟩

theorem coalesce_footprint (s : Nat) (bs : List Block) :
    footprint (coalesce s bs) = 4 + s + footprint bs := by
  cases bs with
  | nil => simp [coalesce, footprint]
  | cons nxt rest =>
    rw [coalesce]
    by_cases hf : nxt.free = true
    · rw [if_pos hf, footprint_cons, footprint_cons]
      simp
      omega
    · rw [if_neg hf, footprint_cons, footprint_cons]

theorem coalesce_sizes (s : Nat) (bs : List Block) (hs : s % 4 = 0)
    (hb : sizesAligned bs) : sizesAligned (coalesce s bs) := by
  cases bs with
  | nil =>
    intro c hc
    simp [coalesce] at hc
    subst hc
    exact hs
  | cons nxt rest =>
    rw [sizesAligned_cons] at hb
    rw [coalesce]
    by_cases hf : nxt.free = true
    · rw [if_pos hf, sizesAligned_cons]
      constructor
      · simp
        omega
      · exact hb.2
    · rw [if_neg hf, sizesAligned_cons, sizesAligned_cons]
      exact ⟨hs, hb⟩

/-- The just-freed block heads the rewritten tail as a FREE block whose size
only grew by the (optional) right-coalesce. -/
theorem coalesce_head (s : Nat) (bs : List Block) :
    ∃ t r2, coalesce s bs = Block.mk true t :: r2 ∧ s ≤ t := by
  cases bs with
  | nil => exact ⟨s, [], rfl, le_refl s⟩
  | cons nxt rest =>
    rw [coalesce]
    by_cases hf : nxt.free = true
    · rw [if_pos hf]
      exact ⟨s + 4 + nxt.size, rest, rfl, by omega⟩
    · rw [if_neg hf]
      exact ⟨s, nxt :: rest, rfl, le_refl s⟩

/-- Success path of the free scan: on a buffer made of a prefix whose blocks
all lie before the pointer, then a USED block whose payload contains the
pointer, the scan flips that block and right-coalesces, leaving the prefix
untouched. -/
theorem freeFrom_ok (p off s : Nat) (pre rest : List Block)
    (h1 : off + footprint pre + 4 ≤ p)
    (h2 : p < off + footprint pre + 4 + s) :
    freeFrom p off (pre ++ Block.mk false s :: rest) =
      .ok (pre ++ coalesce s rest) := by
  induction pre generalizing off with
  | nil =>
    rw [footprint_nil] at h1 h2
    rw [List.nil_append, freeFrom,
      if_pos ⟨by omega, show p < off + 4 + s by omega⟩]
    rfl
  | cons c pre2 ih =>
    rw [footprint_cons] at h1 h2
    rw [List.cons_append, freeFrom,
      if_neg (by omega : ¬(off + 4 ≤ p ∧ p < off + 4 + c.size)),
      ih (off + 4 + c.size) (by omega) (by omega)]
    rfl

theorem freeFrom_notAllocated (p off : Nat) (buf : List Block)
    (h : ∀ x ∈ blockOffsets off buf, ¬ inPayload p x) :
    freeFrom p off buf = .error .NotAllocated := by
  induction buf generalizing off with
  | nil => rfl
  | cons b bs ih =>
    rw [freeFrom,
      if_neg (show ¬(off + 4 ≤ p ∧ p < off + 4 + b.size) from
        fun hc => h (off, b) (by simp [blockOffsets]) hc),
      ih (off + 4 + b.size)
        (fun x hx => h x (by simp [blockOffsets, hx]))]

theorem freeFrom_doubleFree (p off : Nat) (buf : List Block)
    (pre : List (Nat × Block)) (x : Nat × Block) (rest : List (Nat × Block))
    (hd : blockOffsets off buf = pre ++ x :: rest)
    (hpre : ∀ y ∈ pre, ¬ inPayload p y)
    (hx : inPayload p x) (hf : x.2.free = true) :
    freeFrom p off buf = .error .DoubleFree := by
  induction buf generalizing off pre with
  | nil => simp [blockOffsets] at hd
  | cons b bs ih =>
    rw [blockOffsets] at hd
    cases pre with
    | nil =>
      rw [List.nil_append] at hd
      obtain ⟨hx1, _⟩ := List.cons.injEq .. ▸ hd
      subst hx1
      rw [freeFrom,
        if_pos (show off + 4 ≤ p ∧ p < off + 4 + b.size from ⟨hx.1, hx.2⟩),
        if_pos hf]
    | cons y pre2 =>
      rw [List.cons_append] at hd
      obtain ⟨hy, hd2⟩ := List.cons.injEq .. ▸ hd
      subst hy
      rw [freeFrom,
        if_neg (show ¬(off + 4 ≤ p ∧ p < off + 4 + b.size) from
          fun hc => hpre (off, b) (by simp) hc),
        ih (off + 4 + b.size) pre2 hd2 (fun z hz => hpre z (by simp [hz]))]

/-- A successful free leaves the total footprint unchanged and keeps all
sizes multiples of 4. -/
theorem freeFrom_preserves (p off : Nat) (buf buf2 : List Block)
    (h : freeFrom p off buf = .ok buf2) :
    footprint buf2 = footprint buf ∧
      (sizesAligned buf → sizesAligned buf2) := by
  induction buf generalizing off buf2 with
  | nil => exact absurd h (by simp [freeFrom])
  | cons b bs ih =>
    rw [freeFrom] at h
    by_cases hc : off + 4 ≤ p ∧ p < off + 4 + b.size
    · rw [if_pos hc] at h
      by_cases hf : b.free = true
      · rw [if_pos hf] at h
        exact absurd h (by simp)
      · rw [if_neg hf] at h
        have hb2 : buf2 = coalesce b.size bs := (Except.ok.inj h).symm
        subst hb2
        constructor
        · rw [coalesce_footprint, footprint_cons]
        · intro ha
          rw [sizesAligned_cons] at ha
          exact coalesce_sizes b.size bs ha.1 ha.2
    · rw [if_neg hc] at h
      cases hrec : freeFrom p (off + 4 + b.size) bs with
      | error e => rw [hrec] at h; exact absurd h (by simp)
      | ok bs2 =>
        rw [hrec] at h
        have hb2 : buf2 = b :: bs2 := (Except.ok.inj h).symm
        subst hb2
        obtain ⟨hfp, hsz⟩ := ih (off + 4 + b.size) bs2 hrec
        constructor
        · rw [footprint_cons, footprint_cons, hfp]
        · intro ha
          rw [sizesAligned_cons] at ha ⊢
          exact ⟨ha.1, hsz ha.2⟩

theorem allocFrom_off_mod4 (need off p : Nat) (buf buf2 : List Block)
    (h : allocFrom need off buf = some (p, buf2)) (ha : sizesAligned buf) :
    p % 4 = off % 4 := by
  obtain ⟨pre, b, post, hdec, -, -, -, hoff, -⟩ :=
    allocFrom_eq_some need off p buf buf2 h
  subst hdec
  rw [sizesAligned_append] at ha
  have hm := footprint_mod4 pre ha.1
  omega

theorem Inv_initial (N : Nat) (h8 : 8 ≤ N) (h4 : N % 4 = 0) :
    Inv N (initialBuffer N) := by
  refine ⟨?_, ?_, ?_⟩
  · rw [initialBuffer, footprint_cons, footprint_nil]
    simp
    omega
  · intro b hb
    simp [initialBuffer] at hb
    subst hb
    simp
    omega
  · rw [walkFrom_eq, initialBuffer, footprint_cons, footprint_nil]
    simp
    omega

/-- `align_to addr (2 ^ k)` is the least multiple of `2 ^ k` that is `≥ addr`:
it is reached by adding strictly less than `2 ^ k`, it is a multiple, it fixes
multiples, and no smaller multiple lies at or above `addr`. -/
theorem align_to_spec (addr k : Nat) :
    addr ≤ align_to addr (2 ^ k) ∧
    align_to addr (2 ^ k) < addr + 2 ^ k ∧
    align_to addr (2 ^ k) % 2 ^ k = 0 ∧
    (addr % 2 ^ k = 0 → align_to addr (2 ^ k) = addr) ∧
    (∀ m, addr ≤ m → m % 2 ^ k = 0 → align_to addr (2 ^ k) ≤ m) := by
  have ha : 0 < 2 ^ k := Nat.pos_pow_of_pos k (by norm_num)
  have hlt : addr % 2 ^ k < 2 ^ k := Nat.mod_lt addr ha
  have hval : align_to addr (2 ^ k) =
      addr + (if addr % 2 ^ k ≠ 0 then 2 ^ k - addr % 2 ^ k else 0) := by
    simp only [align_to, Nat.and_pow_two_sub_one_eq_mod]
  by_cases hm : addr % 2 ^ k = 0
  · rw [hval, if_neg (fun hne => hne hm), Nat.add_zero]
    exact ⟨le_refl addr, by omega, hm, fun _ => rfl, fun m h1 _ => h1⟩
  · rw [hval, if_pos hm]
    have key : addr + (2 ^ k - addr % 2 ^ k) =
        2 ^ k * (addr / 2 ^ k + 1) := by
      have hq2 := Nat.div_add_mod addr (2 ^ k)
      set q := addr / 2 ^ k
      set r := addr % 2 ^ k
      rw [← hq2, Nat.add_assoc, Nat.add_sub_cancel' hlt.le, Nat.mul_add,
        Nat.mul_one]
    refine ⟨Nat.le_add_right _ _, by omega, ?_, fun h0 => absurd h0 hm, ?_⟩
    · rw [key]
      exact Nat.mul_mod_right _ _
    · intro m hm1 hm2
      obtain ⟨t, rfl⟩ := Nat.dvd_of_mod_eq_zero hm2
      rw [key]
      have hqt : addr / 2 ^ k + 1 ≤ t := by
        by_contra hcon
        push_neg at hcon
        have h2 : 2 ^ k * t ≤ 2 ^ k * (addr / 2 ^ k) :=
          Nat.mul_le_mul_left _ (by omega)
        have h3 := Nat.div_add_mod addr (2 ^ k)
        omega
      exact Nat.mul_le_mul_left _ hqt

/-- C1: starting from the initial state of one FREE block of size `N - 4`,
the invariants I1 (block footprints `4 + size` sum to exactly `N`), I2 (every
size is a multiple of 4) and I5 (walking from offset 0 by `4 + size` steps
reaches offset `N` exactly) hold, and every `alloc` and every `free` —
on success and on error alike — preserves them. -/
theorem claim1_invariants (N : Nat) :
    (8 ≤ N → N % 4 = 0 → Inv N (initialBuffer N)) ∧
    (∀ buf requested, Inv N buf →
      Inv N (match rawAlloc requested buf with
             | some x => x.2
             | none => buf)) ∧
    (∀ buf p, Inv N buf → Inv N (rawFree p buf).1) := by
  refine ⟨Inv_initial N, ?_, ?_⟩
  · intro buf requested hInv
    cases hr : rawAlloc requested buf with
    | none => exact hInv
    | some x =>
      obtain ⟨p, buf2⟩ := x
      show Inv N buf2
      obtain ⟨hfp, hsz⟩ := allocFrom_preserves _ _ _ _ _ hr
      obtain ⟨h1, h2, h3⟩ := hInv
      refine ⟨by rw [hfp]; exact h1,
        hsz (roundUp4_spec requested).2.1 h2, ?_⟩
      rw [walkFrom_eq, hfp]
      omega
  · intro buf p hInv
    rw [rawFree]
    cases hr : freeFrom p 0 buf with
    | error e => exact hInv
    | ok buf2 =>
      show Inv N buf2
      obtain ⟨hfp, hsz⟩ := freeFrom_preserves _ _ _ _ hr
      obtain ⟨h1, h2, h3⟩ := hInv
      refine ⟨by rw [hfp]; exact h1, hsz h2, ?_⟩
      rw [walkFrom_eq, hfp]
      omega

theorem claim1_invariants_witness :
    Inv 32 (initialBuffer 32) ∧
    Inv 32 (match rawAlloc 8 (initialBuffer 32) with
            | some x => x.2
            | none => initialBuffer 32) ∧
    Inv 32 (rawFree 4 [Block.mk false 8, Block.mk true 16]).1 :=
  ⟨(claim1_invariants 32).1 (by norm_num) (by norm_num),
   (claim1_invariants 32).2.1 (initialBuffer 32) 8
     ((claim1_invariants 32).1 (by norm_num) (by norm_num)),
   (claim1_invariants 32).2.2 [Block.mk false 8, Block.mk true 16] 4
     (by decide)⟩

/-- C2: `alloc` rounds the requested size up to the next multiple of 4
(`need`), scans the list in order and selects exactly the first FREE block
with `size ≥ need`; when no such block exists it returns `none` (and, the
embedding being functional, the buffer is unchanged). -/
theorem claim2_firstFit (requested : Nat) (buf : List Block) :
    (requested ≤ roundUp4 requested ∧ roundUp4 requested % 4 = 0 ∧
      roundUp4 requested < requested + 4) ∧
    (rawAlloc requested buf = none ↔
      ∀ b ∈ buf, ¬(b.free = true ∧ roundUp4 requested ≤ b.size)) ∧
    (∀ pre b post, buf = pre ++ b :: post →
      (∀ c ∈ pre, ¬(c.free = true ∧ roundUp4 requested ≤ c.size)) →
      b.free = true → roundUp4 requested ≤ b.size →
      rawAlloc requested buf =
        some (footprint pre + 4,
          pre ++ splitBlock b (roundUp4 requested) ++ post)) := by
  refine ⟨roundUp4_spec requested,
    allocFrom_eq_none_iff (roundUp4 requested) 0 buf, ?_⟩
  intro pre b post hdec hpre hf hs
  subst hdec
  rw [rawAlloc,
    allocFrom_firstFit (roundUp4 requested) 0 pre b post hpre hf hs]
  norm_num

theorem claim2_firstFit_witness :
    rawAlloc 8 [Block.mk false 4, Block.mk true 16] =
      some (footprint [Block.mk false 4] + 4,
        [Block.mk false 4] ++ splitBlock (Block.mk true 16) (roundUp4 8)
          ++ []) :=
  (claim2_firstFit 8 [Block.mk false 4, Block.mk true 16]).2.2
    [Block.mk false 4] (Block.mk true 16) []
    rfl (by decide) rfl (by decide)

/-- C3: when `alloc` selects a FREE block of size `s` for rounded request
`need` with leftover `L = s - need`: if `L ≥ 4` the block becomes USED of size
exactly `need` and a new FREE block of size `L - 4` follows it; if `L < 4` the
block becomes USED keeping size `s`, and under the preconditions (both sizes
multiples of 4, `s ≥ need`) that branch only occurs with `L = 0`. -/
theorem claim3_split (s need off : Nat) (bs : List Block)
    (hs4 : s % 4 = 0) (hn4 : need % 4 = 0) (hle : need ≤ s) :
    (4 ≤ s - need →
      splitBlock (Block.mk true s) need =
        [Block.mk false need, Block.mk true (s - need - 4)]) ∧
    (s - need < 4 → s - need = 0 ∧
      splitBlock (Block.mk true s) need = [Block.mk false s]) ∧
    allocFrom need off (Block.mk true s :: bs) =
      some (off + 4, splitBlock (Block.mk true s) need ++ bs) := by
  refine ⟨?_, ?_, ?_⟩
  · intro hL
    simp only [splitBlock]
    rw [if_pos (show 4 ≤ (Block.mk true s).size - need from hL)]
  · intro hL
    refine ⟨by omega, ?_⟩
    simp only [splitBlock]
    rw [if_neg (show ¬4 ≤ (Block.mk true s).size - need from by simp; omega)]
  · rw [allocFrom,
      if_pos ⟨rfl, show need ≤ (Block.mk true s).size from hle⟩]

theorem claim3_split_witness :
    (splitBlock (Block.mk true 16) 8 =
      [Block.mk false 8, Block.mk true 4]) ∧
    allocFrom 8 0 [Block.mk true 16] =
      some (0 + 4, splitBlock (Block.mk true 16) 8 ++ []) :=
  ⟨by
    have h := (claim3_split 16 8 0 [] (by norm_num) (by norm_num)
      (by norm_num)).1 (by norm_num)
    simpa using h,
   (claim3_split 16 8 0 [] (by norm_num) (by norm_num) (by norm_num)).2.2⟩

/-- C4: `free` locates the first block whose payload range
`[header+4, header+4+size)` contains the pointer; it returns `NotAllocated`
when no payload contains it and `DoubleFree` when the containing block is
FREE, and in both error cases the buffer is left unchanged (and the total
function never panics). -/
theorem claim4_freeErrors (p : Nat) (buf : List Block) :
    ((∀ x ∈ blockOffsets 0 buf, ¬ inPayload p x) →
      rawFree p buf = (buf, some FreeError.NotAllocated)) ∧
    (∀ pre x rest, blockOffsets 0 buf = pre ++ x :: rest →
      (∀ y ∈ pre, ¬ inPayload p y) → inPayload p x → x.2.free = true →
      rawFree p buf = (buf, some FreeError.DoubleFree)) ∧
    (∀ e, (rawFree p buf).2 = some e → (rawFree p buf).1 = buf) := by
  refine ⟨?_, ?_, ?_⟩
  · intro h
    rw [rawFree, freeFrom_notAllocated p 0 buf h]
  · intro pre x rest hd hpre hx hf
    rw [rawFree, freeFrom_doubleFree p 0 buf pre x rest hd hpre hx hf]
  · intro e
    rw [rawFree]
    cases freeFrom p 0 buf <;> simp

theorem claim4_freeErrors_witness :
    rawFree 100 [Block.mk true 8] =
      ([Block.mk true 8], some FreeError.NotAllocated) ∧
    rawFree 5 [Block.mk true 8] =
      ([Block.mk true 8], some FreeError.DoubleFree) :=
  ⟨(claim4_freeErrors 100 [Block.mk true 8]).1 (by decide),
   (claim4_freeErrors 5 [Block.mk true 8]).2.1 [] (0, Block.mk true 8) []
     (by decide) (by decide) (by decide) rfl⟩

/-- C5: a successful `free` of a USED block flips it to FREE and attempts
exactly one right-coalesce — absorbing a FREE right neighbor into size
`s + 4 + neighbor.size` and erasing its header — while never merging with the
left neighbor, so a FREE block just to the left stays a separate adjacent
FREE block. -/
theorem claim5_freeSuccess (p s : Nat) (pre rest : List Block)
    (h1 : footprint pre + 4 ≤ p) (h2 : p < footprint pre + 4 + s) :
    rawFree p (pre ++ Block.mk false s :: rest) =
      (pre ++ coalesce s rest, none) ∧
    (∀ nxt r2, rest = nxt :: r2 → nxt.free = true →
      coalesce s rest = Block.mk true (s + 4 + nxt.size) :: r2) ∧
    (∀ nxt r2, rest = nxt :: r2 → nxt.free = false →
      coalesce s rest = Block.mk true s :: rest) ∧
    (rest = [] → coalesce s rest = [Block.mk true s]) ∧
    (∀ c pre2, pre = pre2 ++ [c] → c.free = true →
      ∃ t r2, s ≤ t ∧
        rawFree p (pre ++ Block.mk false s :: rest) =
          (pre2 ++ c :: Block.mk true t :: r2, none)) := by
  have hok := freeFrom_ok p 0 s pre rest (by omega) (by omega)
  refine ⟨?_, ?_, ?_, ?_, ?_⟩
  · rw [rawFree, hok]
  · rintro nxt r2 rfl hf
    rw [coalesce, if_pos hf]
  · rintro nxt r2 rfl hf
    rw [coalesce, if_neg (by simp [hf])]
  · rintro rfl
    rfl
  · rintro c pre2 rfl hcf
    obtain ⟨t, r2, hco, hst⟩ := coalesce_head s rest
    refine ⟨t, r2, hst, ?_⟩
    rw [rawFree, hok, hco]
    simp

theorem claim5_freeSuccess_witness :
    rawFree 16 ([Block.mk true 8] ++ Block.mk false 4 :: []) =
      ([Block.mk true 8] ++ coalesce 4 [], none) ∧
    ∃ t r2, 4 ≤ t ∧
      rawFree 16 ([Block.mk true 8] ++ Block.mk false 4 :: []) =
        ([] ++ Block.mk true 8 :: Block.mk true t :: r2, none) :=
  ⟨(claim5_freeSuccess 16 4 [Block.mk true 8] [] (by decide) (by decide)).1,
   (claim5_freeSuccess 16 4 [Block.mk true 8] [] (by decide)
     (by decide)).2.2.2.2 (Block.mk true 8) [] rfl rfl⟩

theorem pow_two_le_four_dvd (k : Nat) (h : 2 ^ k ≤ 4) : 2 ^ k ∣ 4 := by
  have hk : k ≤ 2 := by
    by_contra hcon
    push_neg at hcon
    have h8 : 2 ^ 3 ≤ 2 ^ k := Nat.pow_le_pow_right (by norm_num) hcon
    norm_num at h8
    omega
  have hd : (2 : Nat) ^ k ∣ 2 ^ 2 := pow_dvd_pow 2 hk
  simpa using hd

/-- C6: for a power-of-two `align`, the outer `alloc` requests exactly `size`
bytes when `align ≤ 4` and then returns the (4-aligned) payload start; it
requests exactly `size + align` bytes when `align > 4` and returns the
smallest address at or above the payload start that is `0 mod align`; when
the raw allocator fails it returns the null pointer. -/
theorem claim6_outerAlloc (base size align k : Nat) (buf : List Block)
    (hk : align = 2 ^ k) (hb : base % 4 = 0) (ha : sizesAligned buf) :
    (align ≤ 4 → allocSize size align = size) ∧
    (4 < align → allocSize size align = size + align) ∧
    (∀ off buf2, rawAlloc (allocSize size align) buf = some (off, buf2) →
      allocatorAlloc base size align buf =
        (some (align_to (base + off) align), buf2) ∧
      (align ≤ 4 → align_to (base + off) align = base + off) ∧
      align_to (base + off) align % align = 0 ∧
      base + off ≤ align_to (base + off) align ∧
      (∀ m, base + off ≤ m → m % align = 0 →
        align_to (base + off) align ≤ m)) ∧
    (rawAlloc (allocSize size align) buf = none →
      allocatorAlloc base size align buf = (none, buf)) := by
  subst hk
  refine ⟨?_, ?_, ?_, ?_⟩
  · intro hle
    rw [allocSize, if_neg (by omega)]
  · intro hlt
    rw [allocSize, if_pos hlt]
  · intro off buf2 hr
    obtain ⟨hle, hlt2, hmod, hid, hmin⟩ := align_to_spec (base + off) k
    refine ⟨by rw [allocatorAlloc, hr], ?_, hmod, hle, hmin⟩
    intro h4
    apply hid
    have hoff : off % 4 = 0 := by
      have h0 := allocFrom_off_mod4 _ 0 off buf buf2 hr ha
      simpa using h0
    have hdvd : (2 : Nat) ^ k ∣ 4 := pow_two_le_four_dvd k h4
    have h44 : (base + off) % 4 = 0 := by omega
    obtain ⟨t, ht⟩ := dvd_trans hdvd (Nat.dvd_of_mod_eq_zero h44)
    rw [ht]
    exact Nat.mul_mod_right _ _
  · intro hr
    rw [allocatorAlloc, hr]

theorem claim6_outerAlloc_witness :
    allocatorAlloc 0 4 32 (initialBuffer 128) =
      (some (align_to (0 + 4) 32), [Block.mk false 36, Block.mk true 84]) ∧
    align_to (0 + 4) 32 % 32 = 0 := by
  have h := (claim6_outerAlloc 0 4 32 5 (initialBuffer 128) (by norm_num) rfl
    (by decide)).2.2.1 4 [Block.mk false 36, Block.mk true 84] (by decide)
  exact ⟨h.1, h.2.2.1⟩

/-- C7: construction with compile-time size `N` succeeds exactly when `N ≥ 8`
and `N mod 4 = 0`; any violation is a construction-time panic (modelled as
`none`) and no allocator state is produced, while success produces exactly
the initial one-FREE-block state, which satisfies the invariants. -/
theorem claim7_construction (N : Nat) :
    ((rawNew N).isSome ↔ 8 ≤ N ∧ N % 4 = 0) ∧
    (∀ buf, rawNew N = some buf → buf = initialBuffer N ∧ Inv N buf) ∧
    (¬(8 ≤ N ∧ N % 4 = 0) → rawNew N = none) := by
  by_cases h : 8 ≤ N ∧ N % 4 = 0
  · refine ⟨?_, ?_, fun hc => absurd h hc⟩
    · rw [rawNew, if_pos h]
      simp [h]
    · intro buf hbuf
      rw [rawNew, if_pos h] at hbuf
      have hb := (Option.some.inj hbuf).symm
      subst hb
      exact ⟨rfl, Inv_initial N h.1 h.2⟩
  · refine ⟨?_, ?_, fun _ => by rw [rawNew, if_neg h]⟩
    · rw [rawNew, if_neg h]
      simp [h]
    · intro buf hbuf
      rw [rawNew, if_neg h] at hbuf
      exact absurd hbuf (by simp)

theorem claim7_construction_witness :
    ((rawNew 16).isSome = true) ∧
    (initialBuffer 16 = initialBuffer 16 ∧ Inv 16 (initialBuffer 16)) ∧
    rawNew 6 = none :=
  ⟨(claim7_construction 16).1.mpr ⟨by norm_num, by norm_num⟩,
   (claim7_construction 16).2.1 (initialBuffer 16) (by decide),
   (claim7_construction 6).2.2 (by decide)⟩

/-- C9: while at least one FREE block exists — a zero-size FREE block
included — a size-0 request with `align ≤ 4` succeeds with a non-null
pointer, and a zero-size FREE block is a valid right-coalesce target:
freeing a USED block of size `s` followed by a FREE block of size 0 yields a
single FREE block of size `s + 4`. -/
theorem claim9_zeroSize :
    (∀ base align buf, align ≤ 4 → (∃ b ∈ buf, b.free = true) →
      ((allocatorAlloc base 0 align buf).1).isSome = true) ∧
    (∀ p s pre rest, footprint pre + 4 ≤ p → p < footprint pre + 4 + s →
      rawFree p (pre ++ Block.mk false s :: Block.mk true 0 :: rest) =
        (pre ++ Block.mk true (s + 4) :: rest, none)) := by
  constructor
  · intro base align buf hle hex
    obtain ⟨b, hbm, hbf⟩ := hex
    have hsz : allocSize 0 align = 0 := by
      rw [allocSize, if_neg (by omega)]
    have hsome : (allocFrom (roundUp4 (allocSize 0 align)) 0 buf).isSome
        = true := by
      rw [hsz]
      exact allocFrom_isSome (roundUp4 0) 0 buf b hbm hbf (Nat.zero_le _)
    have hsome2 : (rawAlloc (allocSize 0 align) buf).isSome = true := hsome
    cases hr : rawAlloc (allocSize 0 align) buf with
    | none =>
      rw [hr] at hsome2
      exact absurd hsome2 (by simp)
    | some x =>
      obtain ⟨off, buf2⟩ := x
      rw [allocatorAlloc, hr]
      rfl
  · intro p s pre rest h1 h2
    have hok := freeFrom_ok p 0 s pre (Block.mk true 0 :: rest)
      (by omega) (by omega)
    rw [rawFree, hok, coalesce, if_pos rfl]
    rfl

theorem claim9_zeroSize_witness :
    ((allocatorAlloc 0 0 1 [Block.mk false 4, Block.mk true 0]).1).isSome
      = true ∧
    rawFree 8 ([Block.mk true 0] ++ Block.mk false 4 ::
        Block.mk true 0 :: []) =
      ([Block.mk true 0] ++ Block.mk true 8 :: [], none) :=
  ⟨claim9_zeroSize.1 0 1 [Block.mk false 4, Block.mk true 0] (by norm_num)
     ⟨Block.mk true 0, by decide, rfl⟩,
   claim9_zeroSize.2 8 4 [Block.mk true 0] [] (by decide) (by decide)⟩

/-- C10: for a power-of-two alignment, `align_to` returns the least multiple
of the alignment at or above the address: it fixes aligned addresses, adds
strictly less than the alignment, and therefore for an over-aligned request
the aligned pointer plus the caller's size stays within the
`size + align`-byte payload obtained from the raw allocator. -/
theorem claim10_alignTo (addr k : Nat) :
    align_to addr (2 ^ k) % 2 ^ k = 0 ∧
    addr ≤ align_to addr (2 ^ k) ∧
    (addr % 2 ^ k = 0 → align_to addr (2 ^ k) = addr) ∧
    align_to addr (2 ^ k) < addr + 2 ^ k ∧
    (∀ m, addr ≤ m → m % 2 ^ k = 0 → align_to addr (2 ^ k) ≤ m) ∧
    (∀ size, align_to addr (2 ^ k) + size ≤ addr + (size + 2 ^ k)) := by
  obtain ⟨h1, h2, h3, h4, h5⟩ := align_to_spec addr k
  exact ⟨h3, h1, h4, h2, h5, fun size => by omega⟩

theorem claim10_alignTo_witness :
    align_to 13 (2 ^ 3) ≤ 16 ∧ align_to 16 (2 ^ 3) = 16 :=
  ⟨(claim10_alignTo 13 3).2.2.2.2.1 16 (by norm_num) (by norm_num),
   (claim10_alignTo 16 3).2.2.1 (by norm_num)⟩

/-- C8 fails as stated: in the reachable size-12 state `[USED 4, FREE 0]`,
an alloc of (size 0, align 1) succeeds returning a pointer to the zero-size
block's (empty) payload, but the following dealloc finds no payload
containing that pointer (the buffer is unchanged) and the re-alloc of the
same (size, align) then fails, the last FREE block having been consumed. -/
theorem claim8_cex :
    Inv 12 [Block.mk false 4, Block.mk true 0] ∧
    rawAlloc 4 (initialBuffer 12) =
      some (4, [Block.mk false 4, Block.mk true 0]) ∧
    allocatorAlloc 0 0 1 [Block.mk false 4, Block.mk true 0] =
      (some 12, [Block.mk false 4, Block.mk false 0]) ∧
    allocatorDealloc 0 12 [Block.mk false 4, Block.mk false 0] =
      [Block.mk false 4, Block.mk false 0] ∧
    (allocatorAlloc 0 0 1 [Block.mk false 4, Block.mk false 0]).1 = none :=
  ⟨by decide, by decide, by decide, by decide, by decide⟩

/-- C8 (amended): for a 4-aligned buffer base, an I2-respecting state and a
power-of-two `align`, whenever an alloc of (size, align) succeeds producing
`p` and the request is nonzero (`size > 0` or `align > 4`), a dealloc of `p`
followed immediately by an alloc of the same (size, align) succeeds. -/
theorem claim8_deallocRealloc (base size align k p : Nat)
    (buf buf2 : List Block)
    (hk : align = 2 ^ k) (hb : base % 4 = 0) (ha : sizesAligned buf)
    (hpos : 0 < size ∨ 4 < align)
    (h : allocatorAlloc base size align buf = (some p, buf2)) :
    ((allocatorAlloc base size align
        (allocatorDealloc base p buf2)).1).isSome = true := by
  subst hk
  cases hr : rawAlloc (allocSize size (2 ^ k)) buf with
  | none =>
    rw [allocatorAlloc, hr] at h
    exact absurd h (by simp)
  | some x =>
    obtain ⟨off, bufA⟩ := x
    rw [allocatorAlloc, hr] at h
    simp at h
    obtain ⟨hp, hbuf2⟩ := h
    subst hp
    subst hbuf2
    have hszpos : 0 < allocSize size (2 ^ k) := by
      rw [allocSize]
      rcases hpos with hs | hl
      · split <;> omega
      · rw [if_pos hl]
        omega
    have hneedpos : 0 < roundUp4 (allocSize size (2 ^ k)) :=
      lt_of_lt_of_le hszpos (roundUp4_spec _).1
    obtain ⟨pre, c, post, hdec, hpre, hcf, hcs, hoff, hresA⟩ :=
      allocFrom_eq_some (roundUp4 (allocSize size (2 ^ k))) 0 off buf bufA hr
    have haPre : sizesAligned pre := by
      rw [hdec, sizesAligned_append] at ha
      exact ha.1
    have hfp4 : footprint pre % 4 = 0 := footprint_mod4 pre haPre
    have hoffmod : off % 4 = 0 := by omega
    obtain ⟨s2, tail2, hsplit, hs2⟩ :=
      splitBlock_head c (roundUp4 (allocSize size (2 ^ k))) hcs
    have hbufA : bufA = pre ++ Block.mk false s2 :: (tail2 ++ post) := by
      rw [hresA, hsplit]
      simp
    obtain ⟨hle, hlt, hmod, hid, hmin⟩ := align_to_spec (base + off) k
    have hPhigh : align_to (base + off) (2 ^ k) < base + off + s2 := by
      by_cases h4 : 2 ^ k ≤ 4
      · have hident : align_to (base + off) (2 ^ k) = base + off := by
          apply hid
          have hdvd := pow_two_le_four_dvd k h4
          have h44 : (base + off) % 4 = 0 := by omega
          obtain ⟨t, ht⟩ := dvd_trans hdvd (Nat.dvd_of_mod_eq_zero h44)
          rw [ht]
          exact Nat.mul_mod_right _ _
        rw [hident]
        omega
      · push_neg at h4
        have hak : 2 ^ k ≤ allocSize size (2 ^ k) := by
          rw [allocSize, if_pos h4]
          omega
        have h5 : 2 ^ k ≤ roundUp4 (allocSize size (2 ^ k)) :=
          le_trans hak (roundUp4_spec _).1
        omega
    have hfree := freeFrom_ok (align_to (base + off) (2 ^ k)) base s2 pre
      (tail2 ++ post) (by omega) (by omega)
    have hde : allocatorDealloc base (align_to (base + off) (2 ^ k)) bufA =
        pre ++ coalesce s2 (tail2 ++ post) := by
      rw [allocatorDealloc, hbufA, hfree]
    obtain ⟨t, r2, hco, hst⟩ := coalesce_head s2 (tail2 ++ post)
    have hsome : (allocFrom (roundUp4 (allocSize size (2 ^ k))) 0
        (pre ++ coalesce s2 (tail2 ++ post))).isSome = true := by
      apply allocFrom_isSome _ _ _ (Block.mk true t)
      · rw [hco]
        exact List.mem_append_right _ (by simp)
      · rfl
      · show roundUp4 (allocSize size (2 ^ k)) ≤ (Block.mk true t).size
        simp
        omega
    have hsome2 : (rawAlloc (allocSize size (2 ^ k))
        (pre ++ coalesce s2 (tail2 ++ post))).isSome = true := hsome
    rw [hde]
    cases hr2 : rawAlloc (allocSize size (2 ^ k))
        (pre ++ coalesce s2 (tail2 ++ post)) with
    | none =>
      rw [hr2] at hsome2
      exact absurd hsome2 (by simp)
    | some y =>
      obtain ⟨q, bufB⟩ := y
      rw [allocatorAlloc, hr2]
      rfl

theorem claim8_deallocRealloc_witness :
    ((allocatorAlloc 0 4 1
        (allocatorDealloc 0 4 [Block.mk false 4, Block.mk true 0])).1).isSome
      = true :=
  claim8_deallocRealloc 0 4 1 0 4 [Block.mk true 8]
    [Block.mk false 4, Block.mk true 0] (by norm_num) rfl (by decide)
    (Or.inl (by norm_num)) (by decide)

end Emballoc
